import Mathlib

/-!
Shallow embedding of `QJsonArray` from
`src/src/corelib/serialization/qjsonarray.cpp` (Qt's JSON array handle), together
with a heap model of the reference-counted shared storage backend
(`QCborContainerPrivate`).  The handle operations (`size`, `isEmpty`, `at`,
`first`, `last`, `insert`, `append`, `prepend`, `removeAt`, `takeAt`, `replace`,
`comparesEqual`, `detach`, move construction, hashing) are translated from the
source file; the backend, the JSON value variant and the element codec are not
part of the source slice and are modelled from the spec, as marked on each such
definition.  Machine-level `qsizetype` indices are modelled as `Int` (sizes in
this model are list lengths, far from any overflow boundary), and allocation
never fails in the model.
-/

namespace QtJson

mutual

/-- Modelled from the spec: the Element (JSON value) type, declared outside this
source slice.  Spec §3: "A closed variant over {Undefined, Null, Bool, Double,
String, Array, Object}".  Numbers are modelled as exact rationals; IEEE floating
point semantics is out of scope.  Nested arrays and objects use dedicated list
types so that equality of values is decidable. -/
inductive QJsonValue where
  | Undefined : QJsonValue
  | Null : QJsonValue
  | Bool (b : Bool) : QJsonValue
  | Double (d : Rat) : QJsonValue
  | String (s : String) : QJsonValue
  | Array (elems : QJsonValueList) : QJsonValue
  | Object (fields : QJsonMemberList) : QJsonValue

inductive QJsonValueList where
  | nil : QJsonValueList
  | cons (hd : QJsonValue) (tl : QJsonValueList) : QJsonValueList

inductive QJsonMemberList where
  | nil : QJsonMemberList
  | cons (key : String) (val : QJsonValue) (tl : QJsonMemberList) : QJsonMemberList

end

deriving instance DecidableEq for QJsonValue

/-- Models the test `value.type() == QJsonValue::Undefined` used by
`QJsonArray::insert`. -/
def isUndefined : QJsonValue → Bool
  | QJsonValue.Undefined => true
  | _ => false

/-- Modelled from the spec: the Element codec (spec §6) converts a typed element
to/from the backend's encoded representation.  The binary encoding is out of
scope, so the encoded representation is modelled as the JSON value itself and
the two conversion functions are mutually inverse. -/
abbrev QCborValue := QJsonValue

/-- Modelled from the spec: `QCborValue::fromJsonValue` (encoding direction of
the Element codec). -/
def QCborValue.fromJsonValue (v : QJsonValue) : QCborValue := v

/-- Modelled from the spec: `QJsonPrivate::Value::fromTrustedCbor` (decoding
direction of the Element codec). -/
def fromTrustedCbor (v : QCborValue) : QJsonValue := v

/-- Modelled from the spec: `QCborValue(nullptr)`, the encoded null value that
`QJsonArray::insert` stores in place of an Undefined input. -/
def cborNull : QCborValue := QJsonValue.Null

namespace QCborContainerPrivate

/-- Modelled from the spec: backend `insertAt(index, encoded element)` (spec §6)
inserts into the ordered sequence, shifting subsequent elements right.  The
index is pre-validated by the handle layer. -/
def insertAt (elems : List QCborValue) (i : Nat) (v : QCborValue) : List QCborValue :=
  elems.insertIdx i v

/-- Modelled from the spec: backend `removeAt(index)` (spec §6) removes the
element at the given pre-validated index, shifting subsequent elements left. -/
def removeAt (elems : List QCborValue) (i : Nat) : List QCborValue :=
  elems.eraseIdx i

/-- Modelled from the spec: backend `replaceAt(index, encoded element)`
(spec §6) overwrites the element at the given pre-validated index. -/
def replaceAt (elems : List QCborValue) (i : Nat) (v : QCborValue) : List QCborValue :=
  elems.set i v

/-- Modelled from the spec: backend `valueAt(index) -> encoded element`
(spec §6) at a pre-validated index. -/
def valueAt (elems : List QCborValue) (i : Nat) : QCborValue :=
  elems.getD i QJsonValue.Undefined

/-- Modelled from the spec: backend `extractAt(index) -> encoded element`.  The
call site `QJsonArray::takeAt` reads the element with `extractAt(i)` and then
separately calls `removeAt(i)`, so in this model `extractAt` returns the element
without shrinking the sequence (the removal is performed by the subsequent
`removeAt`). -/
def extractAt (elems : List QCborValue) (i : Nat) : QCborValue :=
  elems.getD i QJsonValue.Undefined

end QCborContainerPrivate

/-- Identity of one shared storage backend instance. -/
abbrev BackendId := Nat

/-- The heap of shared storage backends: for each backend identity, its ordered
sequence of encoded elements and its reference count.  `nextId` is the next
fresh identity used when a backend is allocated or cloned. -/
structure Heap where
  contents : BackendId → List QCborValue
  refs : BackendId → Nat
  nextId : BackendId

/-- The array handle: an optional reference to a shared storage backend
(absent means the logically empty array).  Field `a` matches the member
`QCborContainerPrivate *a` of the source class. -/
structure QJsonArray where
  a : Option BackendId

/-- Overwrite the element sequence of one backend in the heap. -/
def Heap.setContents (h : Heap) (id : BackendId) (l : List QCborValue) : Heap :=
  { contents := fun j => if j = id then l else h.contents j
    refs := h.refs
    nextId := h.nextId }

/-- Allocate a fresh, empty, exclusively owned backend
(`a = new QCborContainerPrivate` in `QJsonArray::insert`). -/
def Heap.allocEmpty (h : Heap) : Heap × QJsonArray :=
  ({ contents := fun j => if j = h.nextId then [] else h.contents j
     refs := fun j => if j = h.nextId then 1 else h.refs j
     nextId := h.nextId + 1 },
   { a := some h.nextId })

/-- Modelled from the spec: `QCborContainerPrivate::detach` (spec §4.2, §6).
If the backend is exclusively owned (reference count at most 1) it is returned
unchanged; otherwise its sequence is cloned into a freshly allocated backend,
the old backend's reference count is decremented, and the fresh backend is
returned.  The reserve hint only affects capacity, which is unobservable here,
and allocation failure is out of scope. -/
def Heap.detachBackend (h : Heap) (id : BackendId) : Heap × BackendId :=
  if h.refs id ≤ 1 then (h, id)
  else
    ({ contents := fun j => if j = h.nextId then h.contents id else h.contents j
       refs := fun j => if j = h.nextId then 1 else if j = id then h.refs id - 1 else h.refs j
       nextId := h.nextId + 1 },
     h.nextId)

/-- The copy constructor `QJsonArray(const QJsonArray &)` (defaulted in the
source): a shallow handle copy that shares the backend, incrementing its
reference count. -/
def copyHandle (h : Heap) (arr : QJsonArray) : Heap × QJsonArray :=
  match arr.a with
  | none => (h, { a := none })
  | some id =>
      ({ contents := h.contents
         refs := fun j => if j = id then h.refs id + 1 else h.refs j
         nextId := h.nextId },
       { a := some id })

/-- The move constructor `QJsonArray(QJsonArray &&other)`: the destination
takes over the backend reference and `other.a` is set to `nullptr`.  Returns
(destination, moved-from source). -/
def moveConstruct (arr : QJsonArray) : QJsonArray × QJsonArray :=
  ({ a := arr.a }, { a := none })

namespace QJsonArray

/-- `QJsonArray::size`: `a ? a->elements.size() : 0`. -/
def size (h : Heap) (arr : QJsonArray) : Int :=
  match arr.a with
  | none => 0
  | some id => ((h.contents id).length : Int)

/-- `QJsonArray::isEmpty`: `a == nullptr || a->elements.isEmpty()`. -/
def isEmpty (h : Heap) (arr : QJsonArray) : Bool :=
  match arr.a with
  | none => true
  | some id => (h.contents id).isEmpty

/-- `QJsonArray::at`: Undefined if the backend is absent or `i` is out of
bounds, otherwise the decoded element at index `i`. -/
def «at» (h : Heap) (arr : QJsonArray) (i : Int) : QJsonValue :=
  match arr.a with
  | none => QJsonValue.Undefined
  | some id =>
      if i < 0 ∨ ((h.contents id).length : Int) ≤ i then QJsonValue.Undefined
      else fromTrustedCbor (QCborContainerPrivate.valueAt (h.contents id) i.toNat)

/-- `QJsonArray::first`: same as `at(0)`. -/
def first (h : Heap) (arr : QJsonArray) : QJsonValue :=
  QJsonArray.at h arr 0

/-- `QJsonArray::last`: `at(a ? a->elements.size() - 1 : 0)`. -/
def last (h : Heap) (arr : QJsonArray) : QJsonValue :=
  match arr.a with
  | none => QJsonArray.at h arr 0
  | some id => QJsonArray.at h arr (((h.contents id).length : Int) - 1)

/-- `QJsonArray::detach(reserve)`: nothing to do when the backend is absent;
otherwise delegate to the backend detach.  The reserve hint
(`reserve ? reserve : size()`) only affects capacity and is unobservable in
this model. -/
def detach (h : Heap) (arr : QJsonArray) (_reserve : Int) : Heap × QJsonArray :=
  match arr.a with
  | none => (h, arr)
  | some id =>
      let p := Heap.detachBackend h id
      (p.1, { a := some p.2 })

/-- `QJsonArray::insert(i, value)`: detach (reserving `size() + 1`) or allocate
a fresh backend, then insert the encoded value at `i`; an Undefined input is
normalized to the encoded null before storage.  The source asserts
`0 <= i <= size` (otherwise undefined behavior); negative `i` is clamped to 0
by `Int.toNat` in the model. -/
def insert (h : Heap) (arr : QJsonArray) (i : Int) (v : QJsonValue) : Heap × QJsonArray :=
  let p :=
    match arr.a with
    | some _ => QJsonArray.detach h arr (QJsonArray.size h arr + 1)
    | none => Heap.allocEmpty h
  match (p.2).a with
  | none => p
  | some id =>
      let enc : QCborValue :=
        if isUndefined v then cborNull else QCborValue.fromJsonValue v
      ((p.1).setContents id (QCborContainerPrivate.insertAt ((p.1).contents id) i.toNat enc),
       p.2)

/-- `QJsonArray::prepend`: `insert(0, value)`. -/
def prepend (h : Heap) (arr : QJsonArray) (v : QJsonValue) : Heap × QJsonArray :=
  QJsonArray.insert h arr 0 v

/-- `QJsonArray::append`: `insert(a ? a->elements.size() : 0, value)`. -/
def append (h : Heap) (arr : QJsonArray) (v : QJsonValue) : Heap × QJsonArray :=
  QJsonArray.insert h arr (match arr.a with
    | none => 0
    | some id => ((h.contents id).length : Int)) v

/-- `QJsonArray::removeAt(i)`: no-op when the backend is absent or `i` is out
of range; otherwise detach and remove the element at `i`. -/
def removeAt (h : Heap) (arr : QJsonArray) (i : Int) : Heap × QJsonArray :=
  match arr.a with
  | none => (h, arr)
  | some id =>
      if i < 0 ∨ ((h.contents id).length : Int) ≤ i then (h, arr)
      else
        let p := QJsonArray.detach h arr 0
        match (p.2).a with
        | none => p
        | some id1 =>
            ((p.1).setContents id1 (QCborContainerPrivate.removeAt ((p.1).contents id1) i.toNat),
             p.2)

/-- `QJsonArray::takeAt(i)`: Undefined and no state change when the backend is
absent or `i` is out of range; otherwise detach, read the element with
`extractAt`, remove it with `removeAt`, and return the decoded element.
Returns (value, heap, handle). -/
def takeAt (h : Heap) (arr : QJsonArray) (i : Int) : QJsonValue × Heap × QJsonArray :=
  match arr.a with
  | none => (QJsonValue.Undefined, h, arr)
  | some id =>
      if i < 0 ∨ ((h.contents id).length : Int) ≤ i then (QJsonValue.Undefined, h, arr)
      else
        let p := QJsonArray.detach h arr 0
        match (p.2).a with
        | none => (QJsonValue.Undefined, p)
        | some id1 =>
            (fromTrustedCbor (QCborContainerPrivate.extractAt ((p.1).contents id1) i.toNat),
             (p.1).setContents id1 (QCborContainerPrivate.removeAt ((p.1).contents id1) i.toNat),
             p.2)

/-- `QJsonArray::replace(i, value)`: the source asserts a present backend and
`0 <= i < size` (otherwise undefined behavior), then detaches and overwrites
index `i`.  Precondition-violating inputs are modelled as leaving the sequence
unchanged (`List.set` out of range is the identity). -/
def replace (h : Heap) (arr : QJsonArray) (i : Int) (v : QJsonValue) : Heap × QJsonArray :=
  match arr.a with
  | none => (h, arr)
  | some _ =>
      let p := QJsonArray.detach h arr 0
      match (p.2).a with
      | none => p
      | some id1 =>
          ((p.1).setContents id1
             (QCborContainerPrivate.replaceAt ((p.1).contents id1) i.toNat
               (QCborValue.fromJsonValue v)),
           p.2)

/-- The iteration sequence of the array in storage order (spec §4.3): the
decoded elements from first to last, empty when the backend is absent. -/
def toList (h : Heap) (arr : QJsonArray) : List QJsonValue :=
  match arr.a with
  | none => []
  | some id => (h.contents id).map fromTrustedCbor

end QJsonArray

/-- `comparesEqual(lhs, rhs)` for two arrays: identical backend reference (also
both absent) is a fast path; an absent backend equals an empty sequence; and
otherwise the sequences must have equal length and equal encoded elements index
by index, in order. -/
def comparesEqual (h : Heap) (lhs rhs : QJsonArray) : Bool :=
  if lhs.a = rhs.a then
    true
  else
    match lhs.a, rhs.a with
    | none, none => true
    | none, some idr => decide ((h.contents idr).length = 0)
    | some idl, none => decide ((h.contents idl).length = 0)
    | some idl, some idr =>
        if (h.contents idl).length = (h.contents idr).length then
          (List.range (h.contents idl).length).all fun i =>
            decide (QCborContainerPrivate.valueAt (h.contents idl) i
              = QCborContainerPrivate.valueAt (h.contents idr) i)
        else
          false

/-- Modelled from the spec: the hash of one element, an arbitrary total
function of the value (spec §4.4 only requires element hashes to be combined
in order; the per-element hash itself lives outside this source slice). -/
def qHashValue : QJsonValue → Nat
  | QJsonValue.Undefined => 0
  | QJsonValue.Null => 1
  | QJsonValue.Bool b => if b then 3 else 2
  | QJsonValue.Double d => 4 + 7 * d.num.natAbs + 11 * d.den
  | QJsonValue.String s => 5 + 13 * s.length
  | QJsonValue.Array _ => 6
  | QJsonValue.Object _ => 7

/-- Modelled from the spec: the order-sensitive combiner used by `qHashRange`
over the element hashes (spec §4.4: "combine the hashes of elements in order
using an order-sensitive combiner"). -/
def qHashCombine (seed h : Nat) : Nat :=
  (seed * 31 + h) % (2 ^ 64)

/-- `qHash(QJsonArray, seed)`: `qHashRange(array.begin(), array.end(), seed)`,
modelled as the order-sensitive fold of the element hashes over the iteration
sequence. -/
def qHashArray (h : Heap) (arr : QJsonArray) (seed : Nat) : Nat :=
  (QJsonArray.toList h arr).foldl (fun s v => qHashCombine s (qHashValue v)) seed

/-- One mutating handle operation, used to quantify over the mutations named by
the copy-on-write isolation property. -/
inductive Mutation where
  | insert (i : Int) (v : QJsonValue) : Mutation
  | append (v : QJsonValue) : Mutation
  | prepend (v : QJsonValue) : Mutation
  | removeAt (i : Int) : Mutation
  | takeAt (i : Int) : Mutation
  | replace (i : Int) (v : QJsonValue) : Mutation

/-- Run one mutating operation on a handle, returning the updated heap and
handle. -/
def applyMutation (h : Heap) (arr : QJsonArray) : Mutation → Heap × QJsonArray
  | Mutation.insert i v => QJsonArray.insert h arr i v
  | Mutation.append v => QJsonArray.append h arr v
  | Mutation.prepend v => QJsonArray.prepend h arr v
  | Mutation.removeAt i => QJsonArray.removeAt h arr i
  | Mutation.takeAt i => (QJsonArray.takeAt h arr i).2
  | Mutation.replace i v => QJsonArray.replace h arr i v

/-- A handle is live in a heap: its backend identity (if any) has been
allocated (is below `nextId`) and is counted by at least one reference. -/
def Heap.validFor (h : Heap) (arr : QJsonArray) : Prop :=
  match arr.a with
  | none => True
  | some id => id < h.nextId ∧ 1 ≤ h.refs id

instance (h : Heap) (arr : QJsonArray) : Decidable (Heap.validFor h arr) :=
  match arr with
  | { a := none } => Decidable.isTrue trivial
  | { a := some id } => inferInstanceAs (Decidable (id < h.nextId ∧ 1 ≤ h.refs id))

/-! Concrete states used by witnesses and counterexamples. -/

/-- A heap with no allocated backend. -/
def emptyHeap : Heap :=
  { contents := fun _ => [], refs := fun _ => 0, nextId := 0 }

/-- A heap whose single live backend 0 holds the encoded sequence `[1, 2]`. -/
def heap12 : Heap :=
  { contents := fun j => if j = 0 then [QJsonValue.Double 1, QJsonValue.Double 2] else []
    refs := fun j => if j = 0 then 1 else 0
    nextId := 1 }

/-- The handle referencing backend 0. -/
def handle0 : QJsonArray := { a := some 0 }

/-- A heap whose single live backend 0 holds the encoded sequence `[1, 2, 3]`. -/
def heap123 : Heap :=
  { contents := fun j =>
      if j = 0 then [QJsonValue.Double 1, QJsonValue.Double 2, QJsonValue.Double 3] else []
    refs := fun j => if j = 0 then 1 else 0
    nextId := 1 }

/-! Helper lemmas about the embedding. -/

lemma size_nonneg (h : Heap) (arr : QJsonArray) : 0 ≤ QJsonArray.size h arr := by
  cases harr : arr.a <;> simp [QJsonArray.size, harr]

lemma size_congr (h h' : Heap) (arr : QJsonArray)
    (hc : ∀ id, arr.a = some id → h'.contents id = h.contents id) :
    QJsonArray.size h' arr = QJsonArray.size h arr := by
  cases harr : arr.a with
  | none => simp [QJsonArray.size, harr]
  | some id => simp [QJsonArray.size, harr, hc id harr]

lemma at_congr (h h' : Heap) (arr : QJsonArray)
    (hc : ∀ id, arr.a = some id → h'.contents id = h.contents id) (i : Int) :
    QJsonArray.at h' arr i = QJsonArray.at h arr i := by
  cases harr : arr.a with
  | none => simp [QJsonArray.at, harr]
  | some id => simp [QJsonArray.at, harr, hc id harr]

lemma detachBackend_view (h : Heap) (id : BackendId) :
    (Heap.detachBackend h id).1.contents (Heap.detachBackend h id).2 = h.contents id := by
  unfold Heap.detachBackend
  split
  · rfl
  · simp

lemma detachBackend_contents_lt (h : Heap) (id j : BackendId) (hj : j < h.nextId) :
    (Heap.detachBackend h id).1.contents j = h.contents j := by
  unfold Heap.detachBackend
  split
  · rfl
  · simp only
    rw [if_neg (Nat.ne_of_lt hj)]

lemma detachBackend_nextId_lt (h : Heap) (id j : BackendId) (hj : j < h.nextId) :
    j < (Heap.detachBackend h id).1.nextId := by
  unfold Heap.detachBackend
  split
  · exact hj
  · exact Nat.lt_succ_of_lt hj

lemma detachBackend_target_of_shared (h : Heap) (id : BackendId) (hs : 2 ≤ h.refs id) :
    (Heap.detachBackend h id).2 = h.nextId := by
  unfold Heap.detachBackend
  rw [if_neg (by omega)]

lemma detachBackend_target_of_own (h : Heap) (id : BackendId) (hs : h.refs id ≤ 1) :
    Heap.detachBackend h id = (h, id) := by
  unfold Heap.detachBackend
  rw [if_pos hs]

/-- Claim C10: move-constructing from a handle clears the source handle's
backend reference, so the moved-from source reads as the empty array (size 0,
isEmpty, empty iteration), while the destination observes exactly the source's
previous contents. -/
theorem moveConstruct_spec (h : Heap) (arr : QJsonArray) :
    (moveConstruct arr).2.a = none
    ∧ QJsonArray.size h (moveConstruct arr).2 = 0
    ∧ QJsonArray.isEmpty h (moveConstruct arr).2 = true
    ∧ QJsonArray.toList h (moveConstruct arr).2 = []
    ∧ (moveConstruct arr).1.a = arr.a
    ∧ QJsonArray.size h (moveConstruct arr).1 = QJsonArray.size h arr
    ∧ (∀ i : Int, QJsonArray.at h (moveConstruct arr).1 i = QJsonArray.at h arr i)
    ∧ QJsonArray.toList h (moveConstruct arr).1 = QJsonArray.toList h arr := by
  refine ⟨rfl, rfl, rfl, rfl, rfl, rfl, fun i => rfl, rfl⟩

/-- Claim C6: `at(i)` on an out-of-range index (negative, or at least the
size) returns Undefined; reading never changes state (reads are pure functions
of the heap in this embedding); `first` is `at(0)`, `last` is `at(size - 1)`,
and both are Undefined on an empty array. -/
theorem at_out_of_range_spec (h : Heap) (arr : QJsonArray) :
    (∀ i : Int, i < 0 ∨ QJsonArray.size h arr ≤ i →
      QJsonArray.at h arr i = QJsonValue.Undefined)
    ∧ QJsonArray.first h arr = QJsonArray.at h arr 0
    ∧ QJsonArray.last h arr = QJsonArray.at h arr (QJsonArray.size h arr - 1)
    ∧ (QJsonArray.isEmpty h arr = true →
        QJsonArray.first h arr = QJsonValue.Undefined
        ∧ QJsonArray.last h arr = QJsonValue.Undefined) := by
  refine ⟨?_, rfl, ?_, ?_⟩
  · intro i hi
    cases harr : arr.a with
    | none => simp [QJsonArray.at, harr]
    | some id =>
        rw [QJsonArray.size, harr] at hi
        simp only [QJsonArray.at, harr]
        rw [if_pos hi]
  · cases harr : arr.a with
    | none => simp [QJsonArray.last, QJsonArray.at, QJsonArray.size, harr]
    | some id => simp [QJsonArray.last, QJsonArray.size, harr]
  · intro he
    cases harr : arr.a with
    | none =>
        exact ⟨by simp [QJsonArray.first, QJsonArray.at, harr],
          by simp [QJsonArray.last, QJsonArray.at, harr]⟩
    | some id =>
        rw [QJsonArray.isEmpty, harr, List.isEmpty_iff] at he
        constructor
        · simp [QJsonArray.first, QJsonArray.at, harr, he]
        · simp [QJsonArray.last, QJsonArray.at, harr, he]

/-- Claim C6 witness. -/
theorem at_out_of_range_spec_witness :
    QJsonArray.at heap12 handle0 5 = QJsonValue.Undefined
    ∧ QJsonArray.at heap12 handle0 (-1) = QJsonValue.Undefined
    ∧ QJsonArray.first emptyHeap { a := none } = QJsonValue.Undefined := by
  refine ⟨(at_out_of_range_spec heap12 handle0).1 5 (by decide), ?_, ?_⟩
  · exact (at_out_of_range_spec heap12 handle0).1 (-1) (by decide)
  · exact ((at_out_of_range_spec emptyHeap { a := none }).2.2.2 (by decide)).1

/-- Claim C8: a handle with an absent backend reference and a handle whose
backend holds an empty sequence are observationally equivalent for every read
operation: both report size 0, isEmpty, compare equal to each other (both
ways), and both yield the empty iteration sequence. -/
theorem absent_empty_equiv (h : Heap) (id : BackendId) (he : h.contents id = []) :
    QJsonArray.size h { a := none } = 0
    ∧ QJsonArray.size h { a := some id } = 0
    ∧ QJsonArray.isEmpty h { a := none } = true
    ∧ QJsonArray.isEmpty h { a := some id } = true
    ∧ comparesEqual h { a := none } { a := some id } = true
    ∧ comparesEqual h { a := some id } { a := none } = true
    ∧ (∀ i : Int, QJsonArray.at h { a := none } i = QJsonArray.at h { a := some id } i)
    ∧ QJsonArray.toList h { a := none } = []
    ∧ QJsonArray.toList h { a := some id } = [] := by
  refine ⟨rfl, ?_, rfl, ?_, ?_, ?_, ?_, rfl, ?_⟩
  · simp [QJsonArray.size, he]
  · simp [QJsonArray.isEmpty, he]
  · simp [comparesEqual, he]
  · simp [comparesEqual, he]
  · intro i
    simp only [QJsonArray.at, he, List.length_nil, Nat.cast_zero]
    split
    · rfl
    · omega
  · simp [QJsonArray.toList, he]

/-- Claim C8 witness. -/
theorem absent_empty_equiv_witness :
    comparesEqual emptyHeap { a := none } { a := some 3 } = true
    ∧ QJsonArray.size emptyHeap { a := some 3 } = 0 := by
  exact ⟨(absent_empty_equiv emptyHeap 3 rfl).2.2.2.2.1,
    (absent_empty_equiv emptyHeap 3 rfl).2.1⟩

/-- The element sequence a handle sees: empty when the backend is absent. -/
def backendList (h : Heap) (arr : QJsonArray) : List QCborValue :=
  match arr.a with
  | none => []
  | some id => h.contents id

lemma size_eq_backendList_length (h : Heap) (arr : QJsonArray) :
    QJsonArray.size h arr = ((backendList h arr).length : Int) := by
  cases harr : arr.a <;> simp [QJsonArray.size, backendList, harr]

lemma at_eq_backendList_getD (h : Heap) (arr : QJsonArray) (i : Int)
    (h0 : 0 ≤ i) (h1 : i < QJsonArray.size h arr) :
    QJsonArray.at h arr i = (backendList h arr).getD i.toNat QJsonValue.Undefined := by
  cases harr : arr.a with
  | none => simp [QJsonArray.size, harr] at h1; omega
  | some id =>
      simp only [QJsonArray.size, harr] at h1
      simp only [QJsonArray.at, backendList, harr]
      rw [if_neg (by omega)]
      rfl

/-- After `insert`, the handle references a backend whose sequence is the
previous sequence with the (normalized) encoded value inserted at `i`. -/
lemma insert_view (h : Heap) (arr : QJsonArray) (i : Int) (v : QJsonValue) :
    ∃ id, ((QJsonArray.insert h arr i v).2).a = some id ∧
      ((QJsonArray.insert h arr i v).1).contents id =
        QCborContainerPrivate.insertAt (backendList h arr) i.toNat
          (if isUndefined v then cborNull else QCborValue.fromJsonValue v) := by
  cases harr : arr.a with
  | none =>
      refine ⟨h.nextId, ?_, ?_⟩ <;>
        simp [QJsonArray.insert, harr, Heap.allocEmpty, Heap.setContents, backendList]
  | some idB =>
      refine ⟨(Heap.detachBackend h idB).2, ?_, ?_⟩
      · simp [QJsonArray.insert, harr, QJsonArray.detach]
      · simp only [QJsonArray.insert, harr, QJsonArray.detach, Heap.setContents, backendList]
        simp [detachBackend_view]

lemma isUndefined_eq_false (v : QJsonValue) (hv : v ≠ QJsonValue.Undefined) :
    isUndefined v = false := by
  cases v <;> simp_all [isUndefined]

lemma toNat_le_length (i : Int) (n : Nat) (h0 : 0 ≤ i) (h1 : i ≤ (n : Int)) :
    i.toNat ≤ n := by omega

/-- Core correctness of `insert` at a valid index: the stored element is the
normalized encoding of `v`, read back by `at(i)`, and the size grows by one. -/
lemma insert_at_and_size (h : Heap) (arr : QJsonArray) (i : Int) (v : QJsonValue)
    (h0 : 0 ≤ i) (h1 : i ≤ QJsonArray.size h arr) :
    QJsonArray.at (QJsonArray.insert h arr i v).1 (QJsonArray.insert h arr i v).2 i =
      (if isUndefined v then cborNull else QCborValue.fromJsonValue v)
    ∧ QJsonArray.size (QJsonArray.insert h arr i v).1 (QJsonArray.insert h arr i v).2 =
        QJsonArray.size h arr + 1 := by
  obtain ⟨id, ha, hc⟩ := insert_view h arr i v
  rw [size_eq_backendList_length] at h1
  have hle : i.toNat ≤ (backendList h arr).length := toNat_le_length _ _ h0 h1
  have hlen : ((QJsonArray.insert h arr i v).1.contents id).length
      = (backendList h arr).length + 1 := by
    rw [hc]
    simp only [QCborContainerPrivate.insertAt]
    exact List.length_insertIdx _ _ hle
  constructor
  · simp only [QJsonArray.at, ha]
    rw [if_neg (by rw [hlen]; omega)]
    simp only [QCborContainerPrivate.valueAt, fromTrustedCbor, hc,
      QCborContainerPrivate.insertAt]
    rw [List.getD_eq_getElem _ _ (by rw [List.length_insertIdx _ _ hle]; omega),
      List.getElem_insertIdx_self _ _ _ hle]
  · rw [size_eq_backendList_length h arr]
    simp only [QJsonArray.size, ha, hlen]
    push_cast
    ring

/-- Claim C2 counterexample: `insert(0, Undefined)` into an array, followed by
`at(0)`, does not return the inserted value Undefined (it returns the
normalized Null), so "insert followed by at returns v for every value v" fails
at v = Undefined. -/
theorem insert_then_at_counterexample :
    QJsonArray.at (QJsonArray.insert emptyHeap { a := none } 0 QJsonValue.Undefined).1
        (QJsonArray.insert emptyHeap { a := none } 0 QJsonValue.Undefined).2 0
      = QJsonValue.Null
    ∧ QJsonValue.Null ≠ QJsonValue.Undefined := by
  exact ⟨by decide, by decide⟩

/-- Claim C2 (amended: the inserted value must not be the Undefined variant,
which is normalized to Null before storage): for every array and every
non-Undefined value v, `insert(i, v)` with `0 ≤ i ≤ size` followed by `at(i)`
returns v, and the size increases by exactly 1. -/
theorem insert_then_at (h : Heap) (arr : QJsonArray) (i : Int) (v : QJsonValue)
    (h0 : 0 ≤ i) (h1 : i ≤ QJsonArray.size h arr) (hv : v ≠ QJsonValue.Undefined) :
    QJsonArray.at (QJsonArray.insert h arr i v).1 (QJsonArray.insert h arr i v).2 i = v
    ∧ QJsonArray.size (QJsonArray.insert h arr i v).1 (QJsonArray.insert h arr i v).2 =
        QJsonArray.size h arr + 1 := by
  have hins := insert_at_and_size h arr i v h0 h1
  rw [isUndefined_eq_false v hv] at hins
  exact ⟨hins.1, hins.2⟩

/-- Claim C2 witness. -/
theorem insert_then_at_witness :
    QJsonArray.at (QJsonArray.insert heap12 handle0 1 (QJsonValue.Double 7)).1
        (QJsonArray.insert heap12 handle0 1 (QJsonValue.Double 7)).2 1
      = QJsonValue.Double 7
    ∧ QJsonArray.size (QJsonArray.insert heap12 handle0 1 (QJsonValue.Double 7)).1
        (QJsonArray.insert heap12 handle0 1 (QJsonValue.Double 7)).2
      = QJsonArray.size heap12 handle0 + 1 :=
  insert_then_at heap12 handle0 1 (QJsonValue.Double 7) (by decide) (by decide) (by decide)

/-- Claim C3: inserting the Undefined variant (directly, or through append or
prepend, which delegate to insert) stores the normalized Null value, and `at`
at that position reads back Null rather than Undefined. -/
theorem insert_undefined_normalized (h : Heap) (arr : QJsonArray) :
    (∀ i : Int, 0 ≤ i → i ≤ QJsonArray.size h arr →
      QJsonArray.at (QJsonArray.insert h arr i QJsonValue.Undefined).1
        (QJsonArray.insert h arr i QJsonValue.Undefined).2 i = QJsonValue.Null)
    ∧ QJsonArray.at (QJsonArray.append h arr QJsonValue.Undefined).1
        (QJsonArray.append h arr QJsonValue.Undefined).2 (QJsonArray.size h arr)
      = QJsonValue.Null
    ∧ QJsonArray.at (QJsonArray.prepend h arr QJsonValue.Undefined).1
        (QJsonArray.prepend h arr QJsonValue.Undefined).2 0
      = QJsonValue.Null := by
  have hgen : ∀ i : Int, 0 ≤ i → i ≤ QJsonArray.size h arr →
      QJsonArray.at (QJsonArray.insert h arr i QJsonValue.Undefined).1
        (QJsonArray.insert h arr i QJsonValue.Undefined).2 i = QJsonValue.Null := by
    intro i h0 h1
    exact (insert_at_and_size h arr i QJsonValue.Undefined h0 h1).1
  refine ⟨hgen, ?_, ?_⟩
  · have happ : QJsonArray.append h arr QJsonValue.Undefined
        = QJsonArray.insert h arr (QJsonArray.size h arr) QJsonValue.Undefined := by
      cases harr : arr.a <;>
        simp [QJsonArray.append, QJsonArray.size, harr]
    rw [happ]
    exact hgen (QJsonArray.size h arr) (size_nonneg h arr) le_rfl
  · exact hgen 0 le_rfl (size_nonneg h arr)

/-- Claim C3 witness. -/
theorem insert_undefined_normalized_witness :
    QJsonArray.at (QJsonArray.insert heap12 handle0 2 QJsonValue.Undefined).1
        (QJsonArray.insert heap12 handle0 2 QJsonValue.Undefined).2 2
      = QJsonValue.Null :=
  (insert_undefined_normalized heap12 handle0).1 2 (by decide) (by decide)

/-- `removeAt` on an invalid index or an absent backend returns early and is a
strict no-op on the whole state. -/
lemma removeAt_noop (h : Heap) (arr : QJsonArray) (i : Int)
    (hinv : arr.a = none ∨ i < 0 ∨ QJsonArray.size h arr ≤ i) :
    QJsonArray.removeAt h arr i = (h, arr) := by
  cases harr : arr.a with
  | none => simp [QJsonArray.removeAt, harr]
  | some idB =>
      have hg : i < 0 ∨ ((h.contents idB).length : Int) ≤ i := by
        rcases hinv with hno | hlt | hge
        · rw [harr] at hno; exact absurd hno (by simp)
        · exact Or.inl hlt
        · simp only [QJsonArray.size, harr] at hge; exact Or.inr hge
      simp only [QJsonArray.removeAt, harr]
      rw [if_pos hg]

/-- After `removeAt` at a valid index, the handle's sequence is the previous
sequence with index `i` erased. -/
lemma removeAt_backendList (h : Heap) (arr : QJsonArray) (i : Int)
    (h0 : 0 ≤ i) (h1 : i < QJsonArray.size h arr) :
    backendList (QJsonArray.removeAt h arr i).1 (QJsonArray.removeAt h arr i).2
      = (backendList h arr).eraseIdx i.toNat := by
  cases harr : arr.a with
  | none => simp [QJsonArray.size, harr] at h1; omega
  | some idB =>
      simp only [QJsonArray.size, harr] at h1
      simp only [QJsonArray.removeAt, harr]
      rw [if_neg (by omega)]
      simp only [QJsonArray.detach, harr, Heap.setContents, backendList,
        QCborContainerPrivate.removeAt]
      simp [detachBackend_view]

/-- Claim C5: `removeAt(i)` on a valid index decreases the size by exactly 1
and shifts every element at a position greater than `i` down by one position,
preserving the relative order of the remaining elements; for any other `i`, or
when the backend is absent, `removeAt(i)` is a strict no-op. -/
theorem removeAt_spec (h : Heap) (arr : QJsonArray) (i : Int) :
    (0 ≤ i → i < QJsonArray.size h arr →
      QJsonArray.size (QJsonArray.removeAt h arr i).1 (QJsonArray.removeAt h arr i).2
        = QJsonArray.size h arr - 1
      ∧ (∀ j : Int, 0 ≤ j → j < i →
          QJsonArray.at (QJsonArray.removeAt h arr i).1 (QJsonArray.removeAt h arr i).2 j
            = QJsonArray.at h arr j)
      ∧ (∀ j : Int, i ≤ j → j < QJsonArray.size h arr - 1 →
          QJsonArray.at (QJsonArray.removeAt h arr i).1 (QJsonArray.removeAt h arr i).2 j
            = QJsonArray.at h arr (j + 1)))
    ∧ ((arr.a = none ∨ i < 0 ∨ QJsonArray.size h arr ≤ i) →
        QJsonArray.removeAt h arr i = (h, arr)) := by
  refine ⟨?_, removeAt_noop h arr i⟩
  intro h0 h1
  have hview := removeAt_backendList h arr i h0 h1
  have hi : i.toNat < (backendList h arr).length := by
    rw [size_eq_backendList_length] at h1; omega
  have hsize : QJsonArray.size (QJsonArray.removeAt h arr i).1
      (QJsonArray.removeAt h arr i).2 = QJsonArray.size h arr - 1 := by
    rw [size_eq_backendList_length, hview, List.length_eraseIdx_of_lt hi,
      size_eq_backendList_length h arr]
    omega
  refine ⟨hsize, ?_, ?_⟩
  · intro j hj0 hji
    have hjs : j < QJsonArray.size h arr := by omega
    rw [at_eq_backendList_getD _ _ j hj0 (by omega),
      at_eq_backendList_getD h arr j hj0 hjs, hview]
    have hjn : j.toNat < ((backendList h arr).eraseIdx i.toNat).length := by
      rw [List.length_eraseIdx_of_lt hi]
      rw [size_eq_backendList_length] at hjs h1
      omega
    rw [List.getD_eq_getElem _ _ hjn,
      List.getD_eq_getElem _ _ (by rw [List.length_eraseIdx_of_lt hi] at hjn; omega),
      List.getElem_eraseIdx_of_lt _ _ _ hjn (by omega)]
  · intro j hji hjs
    have hj0 : 0 ≤ j := by omega
    rw [at_eq_backendList_getD _ _ j hj0 (by omega),
      at_eq_backendList_getD h arr (j + 1) (by omega) (by omega), hview]
    have hjn : j.toNat < ((backendList h arr).eraseIdx i.toNat).length := by
      rw [List.length_eraseIdx_of_lt hi]
      rw [size_eq_backendList_length] at hjs
      omega
    have hjsucc : (j + 1).toNat = j.toNat + 1 := by omega
    rw [List.getD_eq_getElem _ _ hjn, hjsucc,
      List.getD_eq_getElem _ _ (by rw [List.length_eraseIdx_of_lt hi] at hjn; omega),
      List.getElem_eraseIdx_of_ge _ _ _ hjn (by omega)]

/-- Claim C5 witness: `[1,2,3].removeAt(1)` has size 2, keeps element 0, and
shifts element 2 down to position 1. -/
theorem removeAt_spec_witness :
    QJsonArray.size (QJsonArray.removeAt heap123 handle0 1).1
        (QJsonArray.removeAt heap123 handle0 1).2 = QJsonArray.size heap123 handle0 - 1
    ∧ QJsonArray.at (QJsonArray.removeAt heap123 handle0 1).1
        (QJsonArray.removeAt heap123 handle0 1).2 0 = QJsonArray.at heap123 handle0 0
    ∧ QJsonArray.at (QJsonArray.removeAt heap123 handle0 1).1
        (QJsonArray.removeAt heap123 handle0 1).2 1 = QJsonArray.at heap123 handle0 2
    ∧ QJsonArray.removeAt heap123 handle0 5 = (heap123, handle0) := by
  refine ⟨((removeAt_spec heap123 handle0 1).1 (by decide) (by decide)).1,
    ((removeAt_spec heap123 handle0 1).1 (by decide) (by decide)).2.1 0 (by decide) (by decide),
    ((removeAt_spec heap123 handle0 1).1 (by decide) (by decide)).2.2 1 (by decide) (by decide),
    (removeAt_spec heap123 handle0 5).2 (by decide)⟩

/-- Claim C4: at a valid index, `takeAt(i)` returns exactly the value `at(i)`
would have returned immediately before the call, and its post-state (heap and
handle) is equal to that of `removeAt(i)`; when the backend is absent or the
index is out of range, `takeAt(i)` returns Undefined and leaves the whole
state unchanged. -/
theorem takeAt_spec (h : Heap) (arr : QJsonArray) (i : Int) :
    (0 ≤ i → i < QJsonArray.size h arr →
      (QJsonArray.takeAt h arr i).1 = QJsonArray.at h arr i)
    ∧ (QJsonArray.takeAt h arr i).2 = QJsonArray.removeAt h arr i
    ∧ ((arr.a = none ∨ i < 0 ∨ QJsonArray.size h arr ≤ i) →
        (QJsonArray.takeAt h arr i).1 = QJsonValue.Undefined
        ∧ (QJsonArray.takeAt h arr i).2 = (h, arr)) := by
  refine ⟨?_, ?_, ?_⟩
  · intro h0 h1
    cases harr : arr.a with
    | none => simp [QJsonArray.size, harr] at h1; omega
    | some idB =>
        simp only [QJsonArray.size, harr] at h1
        rw [at_eq_backendList_getD h arr i h0 (by simp only [QJsonArray.size, harr]; omega)]
        simp only [QJsonArray.takeAt, harr]
        rw [if_neg (by omega)]
        simp only [QJsonArray.detach, harr, QCborContainerPrivate.extractAt, fromTrustedCbor,
          backendList]
        simp [detachBackend_view]
  · cases harr : arr.a with
    | none => simp [QJsonArray.takeAt, QJsonArray.removeAt, harr]
    | some idB =>
        by_cases hg : i < 0 ∨ ((h.contents idB).length : Int) ≤ i
        · simp only [QJsonArray.takeAt, QJsonArray.removeAt, harr]
          rw [if_pos hg, if_pos hg]
        · simp only [QJsonArray.takeAt, QJsonArray.removeAt, QJsonArray.detach, harr]
          rw [if_neg hg, if_neg hg]
  · intro hinv
    cases harr : arr.a with
    | none => simp [QJsonArray.takeAt, harr]
    | some idB =>
        have hg : i < 0 ∨ ((h.contents idB).length : Int) ≤ i := by
          rcases hinv with hno | hlt | hge
          · rw [harr] at hno; exact absurd hno (by simp)
          · exact Or.inl hlt
          · simp only [QJsonArray.size, harr] at hge; exact Or.inr hge
        simp only [QJsonArray.takeAt, harr]
        rw [if_pos hg]
        exact ⟨rfl, rfl⟩

/-- Claim C4 witness: `[1,2,3].takeAt(0)` returns 1 (the prior `at(0)`), its
post-state equals `removeAt(0)`, and an out-of-range take returns Undefined
without changing state. -/
theorem takeAt_spec_witness :
    (QJsonArray.takeAt heap123 handle0 0).1 = QJsonArray.at heap123 handle0 0
    ∧ (QJsonArray.takeAt heap123 handle0 0).2 = QJsonArray.removeAt heap123 handle0 0
    ∧ (QJsonArray.takeAt heap123 handle0 9).1 = QJsonValue.Undefined := by
  exact ⟨(takeAt_spec heap123 handle0 0).1 (by decide) (by decide),
    (takeAt_spec heap123 handle0 0).2.1,
    ((takeAt_spec heap123 handle0 9).2.2 (by decide)).1⟩

lemma comparesEqual_iff_backendList (h : Heap) (A B : QJsonArray) :
    comparesEqual h A B = true ↔ backendList h A = backendList h B := by
  unfold comparesEqual
  by_cases hab : A.a = B.a
  · rw [if_pos hab]
    constructor
    · intro _
      unfold backendList
      rw [hab]
    · intro _
      rfl
  · rw [if_neg hab]
    cases hA : A.a with
    | none =>
        cases hB : B.a with
        | none => exact absurd (hA.trans hB.symm) hab
        | some idr =>
            simp only [hA, hB, backendList]
            rw [decide_eq_true_iff]
            rw [List.length_eq_zero]
            exact eq_comm
    | some idl =>
        cases hB : B.a with
        | none =>
            simp only [hA, hB, backendList]
            rw [decide_eq_true_iff]
            exact List.length_eq_zero
        | some idr =>
            simp only [hA, hB, backendList]
            by_cases hlen : (h.contents idl).length = (h.contents idr).length
            · rw [if_pos hlen, List.all_eq_true]
              constructor
              · intro hall
                refine List.ext_getElem hlen ?_
                intro n h1 h2
                have hmem := hall n (List.mem_range.mpr h1)
                rw [decide_eq_true_iff] at hmem
                rw [QCborContainerPrivate.valueAt, QCborContainerPrivate.valueAt] at hmem
                rwa [List.getD_eq_getElem _ _ h1, List.getD_eq_getElem _ _ h2] at hmem
              · intro hl x _
                rw [hl]
                exact decide_eq_true rfl
            · rw [if_neg hlen]
              constructor
              · intro hf
                exact absurd hf (by simp)
              · intro hl
                exact absurd (by rw [hl]) hlen

lemma size_at_iff_backendList (h : Heap) (A B : QJsonArray) :
    (QJsonArray.size h A = QJsonArray.size h B
      ∧ ∀ i : Int, 0 ≤ i → i < QJsonArray.size h A →
          QJsonArray.at h A i = QJsonArray.at h B i)
    ↔ backendList h A = backendList h B := by
  constructor
  · rintro ⟨hs, hat⟩
    have hlen : (backendList h A).length = (backendList h B).length := by
      rw [size_eq_backendList_length, size_eq_backendList_length] at hs
      omega
    refine List.ext_getElem hlen ?_
    intro n h1 h2
    have h0 : (0 : Int) ≤ (n : Int) := by omega
    have hn : (n : Int) < QJsonArray.size h A := by
      rw [size_eq_backendList_length]
      omega
    have hval := hat n h0 hn
    rw [at_eq_backendList_getD h A _ h0 hn,
      at_eq_backendList_getD h B _ h0 (by rw [← hs]; exact hn)] at hval
    rw [Int.toNat_ofNat] at hval
    rwa [List.getD_eq_getElem _ _ h1, List.getD_eq_getElem _ _ h2] at hval
  · intro hl
    refine ⟨by rw [size_eq_backendList_length, size_eq_backendList_length, hl], ?_⟩
    intro i h0 h1
    have h1' : i < QJsonArray.size h B := by
      rw [size_eq_backendList_length, ← hl, ← size_eq_backendList_length]
      exact h1
    rw [at_eq_backendList_getD h A i h0 h1, at_eq_backendList_getD h B i h0 h1', hl]

lemma isEmpty_iff_backendList (h : Heap) (arr : QJsonArray) :
    QJsonArray.isEmpty h arr = true ↔ backendList h arr = [] := by
  cases harr : arr.a <;> simp [QJsonArray.isEmpty, backendList, harr]

/-- Claim C7: array equality is an equivalence relation; `A == B` holds iff A
and B have the same length and their elements compare equal index by index in
order; and both referencing the identical backend (including both absent) and
both being logically empty are sufficient for equality. -/
theorem equality_spec (h : Heap) :
    Equivalence (fun A B : QJsonArray => comparesEqual h A B = true)
    ∧ (∀ A B : QJsonArray, comparesEqual h A B = true ↔
        QJsonArray.size h A = QJsonArray.size h B
        ∧ ∀ i : Int, 0 ≤ i → i < QJsonArray.size h A →
            QJsonArray.at h A i = QJsonArray.at h B i)
    ∧ (∀ A B : QJsonArray, A.a = B.a → comparesEqual h A B = true)
    ∧ (∀ A B : QJsonArray, QJsonArray.isEmpty h A = true →
        QJsonArray.isEmpty h B = true → comparesEqual h A B = true) := by
  refine ⟨⟨?_, ?_, ?_⟩, ?_, ?_, ?_⟩
  · intro A
    rw [comparesEqual_iff_backendList]
  · intro A B hab
    rw [comparesEqual_iff_backendList] at hab ⊢
    exact hab.symm
  · intro A B C hab hbc
    rw [comparesEqual_iff_backendList] at hab hbc ⊢
    exact hab.trans hbc
  · intro A B
    rw [comparesEqual_iff_backendList]
    exact (size_at_iff_backendList h A B).symm
  · intro A B hab
    rw [comparesEqual_iff_backendList]
    unfold backendList
    rw [hab]
  · intro A B heA heB
    rw [comparesEqual_iff_backendList]
    rw [isEmpty_iff_backendList] at heA heB
    rw [heA, heB]

/-- Claim C7 witness. -/
theorem equality_spec_witness :
    comparesEqual heap12 handle0 handle0 = true
    ∧ comparesEqual heap12 handle0 { a := some 0 } = true
    ∧ (comparesEqual heap12 handle0 handle0 = true ↔
        QJsonArray.size heap12 handle0 = QJsonArray.size heap12 handle0
        ∧ ∀ i : Int, 0 ≤ i → i < QJsonArray.size heap12 handle0 →
            QJsonArray.at heap12 handle0 i = QJsonArray.at heap12 handle0 i) := by
  exact ⟨(equality_spec heap12).1.refl handle0,
    (equality_spec heap12).2.2.1 handle0 { a := some 0 } rfl,
    (equality_spec heap12).2.1 handle0 handle0⟩

lemma toList_eq_map (h : Heap) (arr : QJsonArray) :
    QJsonArray.toList h arr = (backendList h arr).map fromTrustedCbor := by
  cases harr : arr.a <;> simp [QJsonArray.toList, backendList, harr]

/-- Claim C9: hashing combines the element hashes in storage order with an
order-sensitive combiner (definitionally, `qHashArray` is the in-order fold of
`qHashCombine` over the element hashes), and it is consistent with equality:
any two equal arrays, in particular two handles sharing one backend, hash to
the same value for the same seed. -/
theorem qHash_consistent (h : Heap) (seed : Nat) :
    (∀ arr : QJsonArray, qHashArray h arr seed =
      (QJsonArray.toList h arr).foldl (fun s v => qHashCombine s (qHashValue v)) seed)
    ∧ (∀ A B : QJsonArray, comparesEqual h A B = true →
        qHashArray h A seed = qHashArray h B seed)
    ∧ (∀ A B : QJsonArray, A.a = B.a → qHashArray h A seed = qHashArray h B seed) := by
  have key : ∀ A B : QJsonArray, backendList h A = backendList h B →
      qHashArray h A seed = qHashArray h B seed := by
    intro A B hbl
    unfold qHashArray
    rw [toList_eq_map, toList_eq_map, hbl]
  refine ⟨fun arr => rfl, ?_, ?_⟩
  · intro A B he
    exact key A B ((comparesEqual_iff_backendList h A B).mp he)
  · intro A B hab
    refine key A B ?_
    unfold backendList
    rw [hab]

/-- Claim C9 witness. -/
theorem qHash_consistent_witness :
    qHashArray heap12 handle0 5 = qHashArray heap12 { a := some 0 } 5 :=
  (qHash_consistent heap12 5).2.2 handle0 { a := some 0 } rfl

/-- Writing through the backend returned by `detach` never touches the
sequence of another already-allocated backend `idA`, provided `idA` is either
not the detached backend or is shared (reference count at least 2, so detach
clones to a fresh identity). -/
lemma setContents_after_detachBackend (h : Heap) (idB : BackendId) (l : List QCborValue)
    (idA : BackendId) (hlt : idA < h.nextId) (hsh : idB = idA → 2 ≤ h.refs idA) :
    (((Heap.detachBackend h idB).1).setContents (Heap.detachBackend h idB).2 l).contents idA
      = h.contents idA := by
  by_cases hr : h.refs idB ≤ 1
  · rw [detachBackend_target_of_own h idB hr]
    have hne : idA ≠ idB := by
      intro he
      have := hsh he.symm
      rw [he] at this
      omega
    simp [Heap.setContents, hne]
  · rw [detachBackend_target_of_shared h idB (by omega)]
    have hne : idA ≠ h.nextId := Nat.ne_of_lt hlt
    simp only [Heap.setContents]
    rw [if_neg hne]
    exact detachBackend_contents_lt h idB idA hlt

lemma insert_preserves (h : Heap) (B : QJsonArray) (i : Int) (v : QJsonValue)
    (idA : BackendId) (hlt : idA < h.nextId) (hsh : B.a = some idA → 2 ≤ h.refs idA) :
    (QJsonArray.insert h B i v).1.contents idA = h.contents idA := by
  cases hB : B.a with
  | none =>
      simp only [QJsonArray.insert, hB, Heap.allocEmpty, Heap.setContents]
      rw [if_neg (Nat.ne_of_lt hlt), if_neg (Nat.ne_of_lt hlt)]
  | some idB =>
      simp only [QJsonArray.insert, hB, QJsonArray.detach]
      refine setContents_after_detachBackend h idB _ idA hlt ?_
      intro he
      exact hsh (by rw [← he]; exact hB)

lemma removeAt_preserves (h : Heap) (B : QJsonArray) (i : Int)
    (idA : BackendId) (hlt : idA < h.nextId) (hsh : B.a = some idA → 2 ≤ h.refs idA) :
    (QJsonArray.removeAt h B i).1.contents idA = h.contents idA := by
  cases hB : B.a with
  | none => simp [QJsonArray.removeAt, hB]
  | some idB =>
      simp only [QJsonArray.removeAt, hB]
      split
      · rfl
      · simp only [QJsonArray.detach, hB]
        refine setContents_after_detachBackend h idB _ idA hlt ?_
        intro he
        exact hsh (by rw [← he]; exact hB)

lemma takeAt_preserves (h : Heap) (B : QJsonArray) (i : Int)
    (idA : BackendId) (hlt : idA < h.nextId) (hsh : B.a = some idA → 2 ≤ h.refs idA) :
    (QJsonArray.takeAt h B i).2.1.contents idA = h.contents idA := by
  cases hB : B.a with
  | none => simp [QJsonArray.takeAt, hB]
  | some idB =>
      simp only [QJsonArray.takeAt, hB]
      split
      · rfl
      · simp only [QJsonArray.detach, hB]
        refine setContents_after_detachBackend h idB _ idA hlt ?_
        intro he
        exact hsh (by rw [← he]; exact hB)

lemma replace_preserves (h : Heap) (B : QJsonArray) (i : Int) (v : QJsonValue)
    (idA : BackendId) (hlt : idA < h.nextId) (hsh : B.a = some idA → 2 ≤ h.refs idA) :
    (QJsonArray.replace h B i v).1.contents idA = h.contents idA := by
  cases hB : B.a with
  | none => simp [QJsonArray.replace, hB]
  | some idB =>
      simp only [QJsonArray.replace, hB, QJsonArray.detach]
      refine setContents_after_detachBackend h idB _ idA hlt ?_
      intro he
      exact hsh (by rw [← he]; exact hB)

/-- No mutating operation on a handle `B` changes the stored sequence of an
already-allocated backend `idA`, provided that whenever `B` itself references
`idA`, that backend is shared (so the mutation detaches to a private clone
first). -/
lemma applyMutation_preserves (h : Heap) (B : QJsonArray) (m : Mutation)
    (idA : BackendId) (hlt : idA < h.nextId) (hsh : B.a = some idA → 2 ≤ h.refs idA) :
    (applyMutation h B m).1.contents idA = h.contents idA := by
  cases m with
  | insert i v => exact insert_preserves h B i v idA hlt hsh
  | append v => exact insert_preserves h B _ v idA hlt hsh
  | prepend v => exact insert_preserves h B 0 v idA hlt hsh
  | removeAt i => exact removeAt_preserves h B i idA hlt hsh
  | takeAt i => exact takeAt_preserves h B i idA hlt hsh
  | replace i v => exact replace_preserves h B i v idA hlt hsh

/-- The copy–append state of the spec's concrete scenario: H2 is a handle copy
of H1 = `[1,2]`, then `H2.append(3)`. -/
def c1After : Heap × QJsonArray :=
  QJsonArray.append (copyHandle heap12 handle0).1 (copyHandle heap12 handle0).2
    (QJsonValue.Double 3)

/-- Claim C1: for every live array A, making a handle copy B of A and then
performing any mutating operation (insert, append, prepend, removeAt, takeAt,
replace) on B leaves A's observable contents (size and every `at(i)`)
unchanged; in particular, for H1 = `[1,2]` and H2 a copy of H1, `H2.append(3)`
yields H1 still `[1,2]` and H2 equal to `[1,2,3]`. -/
theorem cow_isolation (h : Heap) (A : QJsonArray) (m : Mutation)
    (hv : Heap.validFor h A) :
    (QJsonArray.size (applyMutation (copyHandle h A).1 (copyHandle h A).2 m).1 A
        = QJsonArray.size h A
      ∧ ∀ i : Int,
          QJsonArray.at (applyMutation (copyHandle h A).1 (copyHandle h A).2 m).1 A i
            = QJsonArray.at h A i)
    ∧ (QJsonArray.size c1After.1 handle0 = 2
        ∧ QJsonArray.at c1After.1 handle0 0 = QJsonValue.Double 1
        ∧ QJsonArray.at c1After.1 handle0 1 = QJsonValue.Double 2
        ∧ QJsonArray.size c1After.1 c1After.2 = 3
        ∧ QJsonArray.at c1After.1 c1After.2 0 = QJsonValue.Double 1
        ∧ QJsonArray.at c1After.1 c1After.2 1 = QJsonValue.Double 2
        ∧ QJsonArray.at c1After.1 c1After.2 2 = QJsonValue.Double 3) := by
  refine ⟨?_, by decide, by decide, by decide, by decide, by decide, by decide, by decide⟩
  have hc : ∀ idA, A.a = some idA →
      (applyMutation (copyHandle h A).1 (copyHandle h A).2 m).1.contents idA
        = h.contents idA := by
    intro idA hA
    rw [Heap.validFor, hA] at hv
    have hcopy : copyHandle h A =
        ({ contents := h.contents
           refs := fun j => if j = idA then h.refs idA + 1 else h.refs j
           nextId := h.nextId }, { a := some idA }) := by
      simp [copyHandle, hA]
    rw [hcopy]
    have := applyMutation_preserves
      { contents := h.contents
        refs := fun j => if j = idA then h.refs idA + 1 else h.refs j
        nextId := h.nextId }
      { a := some idA } m idA hv.1 (fun _ => by simp; omega)
    simpa using this
  exact ⟨size_congr h _ A hc, at_congr h _ A hc⟩

/-- Claim C1 witness. -/
theorem cow_isolation_witness :
    Heap.validFor heap12 handle0
    ∧ QJsonArray.size
        (applyMutation (copyHandle heap12 handle0).1 (copyHandle heap12 handle0).2
          (Mutation.append (QJsonValue.Double 3))).1 handle0
      = QJsonArray.size heap12 handle0 := by
  exact ⟨by decide,
    (cow_isolation heap12 handle0 (Mutation.append (QJsonValue.Double 3)) (by decide)).1.1⟩

end QtJson
